import Mathlib

/-!
Shallow embedding of the KrakenChain blockchain core
(src/blockchain/{merkle_tree,transaction,block,blockchain}.rs) and proofs
about its Merkle commitment, balance bookkeeping, mempool admission,
eviction, replacement, ordering, transaction validity and proof-of-work
target computation.

Modelling conventions:
* SHA-256 is an external collaborator; its output is modelled by the free
  algebra `Digest` (constructors are injective and pairwise distinct,
  which idealises collision resistance).  `Digest.leaf` carries exactly
  the fields that `Transaction::calculate_hash` feeds to the hasher.
* Rust `f64` amounts and fees are modelled by `Rat` (exact arithmetic on
  the rational values the program manipulates).
* Machine integers (`usize`, `u128`, `i64`) are modelled by `Nat`/`Int`;
  an operation that panics in Rust (integer overflow of `128 - difficulty`,
  shift overflow, `Option::unwrap` on `None`) is modelled by `Option`,
  `none` standing for the panic.
* `chrono::Utc::now().timestamp()` is passed explicitly as a `now : Int`
  argument to every operation that reads the clock.
* The Ed25519 signature scheme is opaque: operations take a
  `verify : List Nat → Digest → List Nat → Bool` parameter
  (public-key bytes, message digest, signature bytes).
-/

namespace Kraken

/-- Free model of SHA-256 digests.  `leaf` is the digest that
`Transaction::calculate_hash` produces (it hashes id, from, to,
amount.to_string and timestamp.to_string — not fee, expiration or
signature); `node` is `MerkleTree::hash_pair` of two digests; `empty` is
the empty byte vector produced by `unwrap_or_default` for an empty tree. -/
inductive Digest : Type where
  | empty : Digest
  | leaf (id fro «to» : String) (amount : Rat) (timestamp : Int) : Digest
  | node (l r : Digest) : Digest
deriving DecidableEq, Repr

/-- Rank used by the stand-in total order on digests. -/
def Digest.rank : Digest → Nat
  | .empty => 0
  | .leaf _ _ _ _ _ => 1
  | .node _ _ => 2

/-- A fixed computable total order standing in for the byte-lexicographic
order on SHA-256 outputs that `verify_proof` uses in `hash < *sibling`.
No claim settled in this file depends on which total order this is. -/
def Digest.ltb : Digest → Digest → Bool
  | .empty, .empty => false
  | .leaf i f t a s, .leaf i' f' t' a' s' =>
      if i ≠ i' then decide (i < i')
      else if f ≠ f' then decide (f < f')
      else if t ≠ t' then decide (t < t')
      else if a ≠ a' then decide (a < a')
      else decide (s < s')
  | .node l r, .node l' r' =>
      if l ≠ l' then Digest.ltb l l' else Digest.ltb r r'
  | d, e => decide (d.rank < e.rank)

/-- Model of `Transaction` (src/blockchain/transaction.rs).  `from` is a Lean
keyword, hence the guillemet name. -/
structure Transaction : Type where
  id : String
  «from» : String
  «to» : String
  amount : Rat
  fee : Rat
  timestamp : Int
  expiration : Int
  signature : Option String
deriving DecidableEq, Repr

/-- Embeds `Transaction::calculate_hash`: SHA-256 over id, from, to,
amount.to_string, timestamp.to_string. -/
def Transaction.calculate_hash (tx : Transaction) : Digest :=
  Digest.leaf tx.id tx.«from» tx.«to» tx.amount tx.timestamp

/-- Value of one hexadecimal digit, `none` for a non-hex character
(as in the `hex` crate). -/
def hexDigitVal (c : Char) : Option Nat :=
  if '0' ≤ c ∧ c ≤ '9' then some (c.toNat - '0'.toNat)
  else if 'a' ≤ c ∧ c ≤ 'f' then some (c.toNat - 'a'.toNat + 10)
  else if 'A' ≤ c ∧ c ≤ 'F' then some (c.toNat - 'A'.toNat + 10)
  else none

/-- Decode a list of characters as hex byte pairs; `none` on odd length
or on a non-hex character (the failure cases of `hex::decode`). -/
def hexPairs : List Char → Option (List Nat)
  | [] => some []
  | [_] => none
  | a :: b :: rest => do
      let ha ← hexDigitVal a
      let hb ← hexDigitVal b
      let r ← hexPairs rest
      pure ((16 * ha + hb) :: r)

/-- Embeds `hex::decode` on a string. -/
def hexDecode (s : String) : Option (List Nat) :=
  hexPairs s.data

/-- The signature-scheme collaborator: `verify pk msg sig` models
`ring::signature::UnparsedPublicKey::new(ED25519, pk).verify(msg, sig).is_ok()`. -/
abbrev SigVerify : Type := List Nat → Digest → List Nat → Bool

/-- Embeds `Transaction::is_valid`.  `none` models the panic of the two
`hex::decode(..).unwrap()` calls on undecodable input; `some b` is the
returned boolean otherwise. -/
def Transaction.is_valid (verify : SigVerify) (tx : Transaction) : Option Bool :=
  if tx.«from» = "Blockchain" then
    some true
  else if tx.amount ≤ 0 then
    some false
  else
    match tx.signature with
    | some s =>
        match hexDecode tx.«from», hexDecode s with
        | some pk, some sg => some (verify pk tx.calculate_hash sg)
        | _, _ => none
    | none => some false

/-! ### Merkle tree (src/blockchain/merkle_tree.rs) -/

/-- Embeds `MerkleTree::hash_pair`. -/
def hash_pair (l r : Digest) : Digest :=
  Digest.node l r

/-- Embeds `MerkleTree::pair_and_hash`: hash consecutive chunks of two, an
unpaired trailing node being paired with itself
(`chunk.get(1).unwrap_or(left)`). -/
def pair_and_hash : List Digest → List Digest
  | [] => []
  | [a] => [hash_pair a a]
  | a :: b :: rest => hash_pair a b :: pair_and_hash rest

/-- The `while nodes.len() > 1 { nodes = pair_and_hash(nodes) }` loop of
`MerkleTree::new`. -/
def collapse (nodes : List Digest) : List Digest :=
  if _h : 1 < nodes.length then
    collapse (pair_and_hash nodes)
  else
    nodes
termination_by nodes.length
decreasing_by
  have key : ∀ l : List Digest, (pair_and_hash l).length = (l.length + 1) / 2 := by
    intro l
    induction l using pair_and_hash.induct with
    | case1 => simp [pair_and_hash]
    | case2 _ => simp [pair_and_hash]
    | case3 a b rest ih =>
        simp only [pair_and_hash, List.length_cons, ih]
        omega
  simp only [key]
  omega

structure MerkleTree : Type where
  root : Digest
  nodes : List Digest
deriving Repr

/-- Embeds `MerkleTree::new`: hash each transaction, duplicate the last hash if
the count is odd, then repeatedly replace the node list by its paired
hashes until at most one node remains.  Note that the `nodes` field ends
up holding only the final level. -/
def MerkleTree.new (transactions : List Transaction) : MerkleTree :=
  let leaves := transactions.map Transaction.calculate_hash
  let padded :=
    if leaves.length % 2 ≠ 0 then
      match leaves.getLast? with
      | some l => leaves ++ [l]
      | none => leaves
    else leaves
  let final := collapse padded
  { root := (final.head?).getD Digest.empty, nodes := final }

/-- The sibling-collection loop of `MerkleTree::get_proof`. -/
def proofLoop (nodes : List Digest) (index level_size : Nat) : List Digest :=
  if _h : 0 < level_size then
    let sibling_index := if index % 2 = 0 then index + 1 else index - 1
    let here :=
      if sibling_index < nodes.length then [nodes.getD sibling_index Digest.empty]
      else []
    here ++ proofLoop nodes (index / 2) (level_size / 2)
  else []
termination_by level_size
decreasing_by omega

/-- Embeds `MerkleTree::get_proof`: find the leaf hash in `self.nodes`, then
walk upward collecting siblings. -/
def MerkleTree.get_proof (t : MerkleTree) (tx : Transaction) : Option (List Digest) :=
  let tx_hash := tx.calculate_hash
  match t.nodes.findIdx? (fun h => h = tx_hash) with
  | none => none
  | some index => some (proofLoop t.nodes index (t.nodes.length / 2))

/-- Embeds `MerkleTree::verify_proof`: refold the digest, putting the smaller
digest first at each step. -/
def MerkleTree.verify_proof (root : Digest) (tx : Transaction) (proof : List Digest) : Bool :=
  let final := proof.foldl
    (fun h sibling => if Digest.ltb h sibling then hash_pair h sibling else hash_pair sibling h)
    tx.calculate_hash
  final = root

/-! ### Block (src/blockchain/block.rs) -/

/-- Model of `Block` (src/blockchain/block.rs).  The block content hash is a
SHA-256 hex string computed by an external hasher; operations that
compute it take it as a `blockHash` function parameter. -/
structure Block : Type where
  index : Nat
  timestamp : Int
  transactions : List Transaction
  previous_hash : String
  hash : String
  nonce : Nat
  difficulty : Nat
  merkle_root : Digest
deriving DecidableEq, Repr

/-- Embeds `Block::new`: snapshot the clock, compute the Merkle root, then fill
the `hash` field from `calculate_hash` (modelled by the `blockHash`
collaborator applied to the block with the empty placeholder hash). -/
def Block.new (blockHash : Block → String) (now : Int) (index : Nat)
    (transactions : List Transaction) (previous_hash : String) (difficulty : Nat) : Block :=
  let b : Block :=
    { index := index
      timestamp := now
      transactions := transactions
      previous_hash := previous_hash
      hash := ""
      nonce := 0
      difficulty := difficulty
      merkle_root := (MerkleTree.new transactions).root }
  { b with hash := blockHash b }

/-- The proof-of-work target `(1u128 << (128 - difficulty)) - 1` shared by
`Block::mine_block` and the hash check of `Blockchain::is_valid_new_block`.
`none` models the two panics: overflow of the `u32` subtraction
`128 - difficulty` when `difficulty > 128`, and overflow of the `u128`
shift when the shift amount `128 - difficulty` is not below 128
(i.e. `difficulty = 0`). -/
def powTarget (difficulty : Nat) : Option Nat :=
  if 128 < difficulty then
    none
  else if 128 ≤ 128 - difficulty then
    none
  else
    some ((1 <<< (128 - difficulty)) - 1)

/-! ### Blockchain state (src/blockchain/blockchain.rs) -/

/-- The constant `MIN_FEE_RATE: f64 = 0.00001`. -/
def MIN_FEE_RATE : Rat := 1 / 100000

/-- Account balances: the `HashMap<String, f64>` is modelled as a total
function defaulting to 0, matching `get_balance`'s `unwrap_or(&0.0)` and
`entry(..).or_insert(0.0)`. -/
abbrev Balances : Type := String → Rat

/-- Model of `Blockchain` (src/blockchain/blockchain.rs). -/
structure Blockchain : Type where
  chain : List Block
  difficulty : Nat
  pending_transactions : List Transaction
  mining_reward : Rat
  balances : Balances
  target_block_time : Int
  mempool : List Transaction
  block_time_window : List Int
  difficulty_adjustment_interval : Nat
  max_mempool_size : Nat
  max_mempool_size_bytes : Nat
  mempool_size_bytes : Nat

/-- Embeds `Blockchain::new` followed by `create_genesis_block`: every field is
initialised with the hard-coded defaults and the `difficulty` argument is
stored without any validation. -/
def Blockchain.new (blockHash : Block → String) (now : Int) (difficulty : Nat)
    (mining_reward : Rat) (target_block_time : Int) : Blockchain :=
  let genesis := Block.new blockHash now 0 [] "0" difficulty
  { chain := [genesis]
    difficulty := difficulty
    pending_transactions := []
    mining_reward := mining_reward
    balances := fun _ => 0
    target_block_time := target_block_time
    mempool := []
    block_time_window := []
    difficulty_adjustment_interval := 10
    max_mempool_size := 1000
    max_mempool_size_bytes := 5000000
    mempool_size_bytes := 0 }

/-- Embeds `Blockchain::get_balance`. -/
def Blockchain.get_balance (bc : Blockchain) (address : String) : Rat :=
  bc.balances address

/-- One `HashMap` entry update: `*balances.entry(addr).or_insert(0.0) += d`. -/
def updBal (b : Balances) (addr : String) (d : Rat) : Balances :=
  fun a => if a = addr then b addr + d else b a

/-- The per-transaction body of the balance replay loops: debit the
sender by the amount, then credit the recipient. -/
def applyTx (b : Balances) (tx : Transaction) : Balances :=
  updBal (updBal b tx.«from» (-tx.amount)) tx.«to» tx.amount

/-- The inner loop of `update_balances` / `recalculate_balances` over one
block. -/
def applyBlockTxs (b : Balances) (block : Block) : Balances :=
  block.transactions.foldl applyTx b

/-- Embeds `Blockchain::update_balances`: replays EVERY transaction of EVERY
block of the chain on top of the current balances, without clearing them
first. -/
def update_balances (chain : List Block) (balances : Balances) : Balances :=
  chain.foldl applyBlockTxs balances

/-- Embeds `Blockchain::recalculate_balances`: clear the map, then replay the
whole chain. -/
def recalculate_balances (chain : List Block) : Balances :=
  update_balances chain (fun _ => 0)

/-- The append-and-update step at the end of a successful
`Blockchain::mine_pending_transactions`
(`self.chain.push(mined_block); self.update_balances();`); the
proof-of-work search and block validation that precede it are elided. -/
def append_and_update (chain : List Block) (balances : Balances) (mined_block : Block) :
    List Block × Balances :=
  let chain' := chain ++ [mined_block]
  (chain', update_balances chain' balances)

/-! ### Mempool operations (src/blockchain/blockchain.rs) -/

/-- Embeds `Blockchain::calculate_transaction_size`:
`std::mem::size_of::<Transaction>()` (a fixed constant on a 64-bit
target, modelled as 128) plus the lengths of `from`, `to` and the
optional signature string. -/
def transactionBaseSize : Nat := 128

def calculate_transaction_size (tx : Transaction) : Nat :=
  transactionBaseSize + tx.«from».length + tx.«to».length +
    (tx.signature.map String.length).getD 0

/-- The fee rate `tx.fee / tx_size as f64` used by the mempool ordering
and the minimum-fee check. -/
def feeRate (tx : Transaction) : Rat :=
  tx.fee / (calculate_transaction_size tx : Rat)

/-- The descending fee-rate ordering of `sort_mempool`: `a` comes before
`b` when the fee rate of `a` is at least that of `b`. -/
def feeGE (a b : Transaction) : Prop :=
  feeRate b ≤ feeRate a

instance : DecidableRel feeGE := fun _ _ => inferInstanceAs (Decidable (_ ≤ _))

instance : IsTotal Transaction feeGE := ⟨fun a b => le_total (feeRate b) (feeRate a)⟩

instance : IsTrans Transaction feeGE := ⟨fun _ _ _ h h' => le_trans h' h⟩

/-- Embeds `Blockchain::sort_mempool`: a stable sort of the mempool by
descending fee rate.  `Vec::sort_by` is a stable sort, and a stable sort
by a total preorder is uniquely determined, so insertion sort computes
exactly its result.  The comparator recomputes each size via
`calculate_transaction_size`, as the Rust code does. -/
def sort_mempool (bc : Blockchain) : Blockchain :=
  { bc with mempool := bc.mempool.insertionSort feeGE }

/-- The eviction loop of `Blockchain::evict_transactions`, acting on the
REVERSED mempool so that `Vec::pop` (removal of the last element)
becomes head removal: while the tracked size plus the required space
exceeds the ceiling, pop an entry and subtract its recomputed size;
stop when the pool is empty. -/
def evictRev (required max : Nat) : List Transaction → Nat → List Transaction × Nat
  | [], size => ([], size)
  | t :: rest, size =>
      if max < size + required then
        evictRev required max rest (size - calculate_transaction_size t)
      else (t :: rest, size)

/-- Embeds `Blockchain::evict_transactions`. -/
def evict_transactions (bc : Blockchain) (required_space : Nat) : Blockchain :=
  let p :=
    evictRev required_space bc.max_mempool_size_bytes bc.mempool.reverse bc.mempool_size_bytes
  { bc with mempool := p.1.reverse, mempool_size_bytes := p.2 }

/-- The conservative same-sender double-spend test of `add_to_mempool`. -/
def doubleSpendHit (bc : Blockchain) (transaction : Transaction) : Bool :=
  let sender_balance := bc.get_balance transaction.«from»
  bc.mempool.any fun tx =>
    decide (tx.«from» = transaction.«from») &&
      decide (sender_balance - (transaction.amount + transaction.fee) < tx.amount + tx.fee)

/-- Embeds `Blockchain::add_to_mempool`.  The outer `Option` models the
potential panic inside `Transaction::is_valid`; the pair is the returned
`Result` (with its exact error strings) together with the state after
the call, errors leaving the state unchanged. -/
def add_to_mempool (verify : SigVerify) (now : Int) (bc : Blockchain)
    (transaction : Transaction) : Option (Except String Unit × Blockchain) :=
  match transaction.is_valid verify with
  | none => none
  | some v =>
    if !v then some (.error "Invalid transaction", bc)
    else
      let sender_balance := bc.get_balance transaction.«from»
      if sender_balance < transaction.amount + transaction.fee then
        some (.error "Insufficient balance", bc)
      else if doubleSpendHit bc transaction then
        some (.error "Potential double-spend detected", bc)
      else if bc.mempool.any fun tx => decide (tx.id = transaction.id) then
        some (.error "Transaction already in mempool", bc)
      else if transaction.expiration < now then
        some (.error "Transaction has expired", bc)
      else
        let tx_size := calculate_transaction_size transaction
        let fee_rate := transaction.fee / (tx_size : Rat)
        if fee_rate < MIN_FEE_RATE then
          some (.error "Transaction fee rate is too low", bc)
        else
          let bc1 :=
            if bc.max_mempool_size_bytes < bc.mempool_size_bytes + tx_size then
              evict_transactions bc tx_size
            else bc
          let bc2 :=
            { bc1 with
                mempool := bc1.mempool ++ [transaction]
                mempool_size_bytes := bc1.mempool_size_bytes + tx_size }
          some (.ok (), sort_mempool bc2)

/-- Embeds `Blockchain::get_transactions_from_mempool`: retain the unexpired
entries, then drain up to `max_transactions` from the front.  The
tracked `mempool_size_bytes` is not touched. -/
def get_transactions_from_mempool (now : Int) (bc : Blockchain) (max_transactions : Nat) :
    List Transaction × Blockchain :=
  let retained := bc.mempool.filter fun tx => decide (now < tx.expiration)
  let n := min max_transactions retained.length
  (retained.take n, { bc with mempool := retained.drop n })

/-- Embeds `Blockchain::replace_transaction` (replace-by-fee). -/
def replace_transaction (verify : SigVerify) (bc : Blockchain)
    (new_transaction : Transaction) : Option (Except String Unit × Blockchain) :=
  match new_transaction.is_valid verify with
  | none => none
  | some v =>
    if !v then some (.error "Invalid transaction", bc)
    else
      let sender_balance := bc.get_balance new_transaction.«from»
      if sender_balance < new_transaction.amount + new_transaction.fee then
        some (.error "Insufficient balance", bc)
      else
        match bc.mempool.find? fun tx => decide (tx.id = new_transaction.id) with
        | none => some (.error "Original transaction not found in mempool", bc)
        | some old_tx =>
          if new_transaction.fee ≤ old_tx.fee then
            some (.error "New transaction must have a higher fee for RBF", bc)
          else
            let old_tx_size := calculate_transaction_size old_tx
            let new_tx_size := calculate_transaction_size new_transaction
            let bc1 :=
              { bc with
                  mempool :=
                    (bc.mempool.eraseP fun tx => decide (tx.id = new_transaction.id)) ++
                      [new_transaction]
                  mempool_size_bytes :=
                    bc.mempool_size_bytes - old_tx_size + new_tx_size }
            some (.ok (), sort_mempool bc1)

/-- Embeds `Blockchain::clean_expired_transactions`: collect the expired
entries, then for each one remove every entry sharing its id and
subtract its size once; finally re-sort. -/
def clean_expired_transactions (now : Int) (bc : Blockchain) : Blockchain :=
  let expired := bc.mempool.filter fun tx => decide (tx.expiration < now)
  let bc1 := expired.foldl
    (fun s tx =>
      { s with
          mempool := s.mempool.filter fun t => decide (t.id ≠ tx.id)
          mempool_size_bytes := s.mempool_size_bytes - calculate_transaction_size tx })
    bc
  sort_mempool bc1

/-! ### Derived measures and concrete fixtures used by the theorems -/

/-- Total recomputed byte size of a list of transactions. -/
def sizeSum (l : List Transaction) : Nat :=
  (l.map calculate_transaction_size).sum

/-- The bookkeeping invariant relating the tracked byte total to the
entries actually present (`load_mempool` re-establishes exactly this). -/
abbrev SizeConsistent (bc : Blockchain) : Prop :=
  bc.mempool_size_bytes = sizeSum bc.mempool

/-- Whether a `Result` is `Ok`. -/
def isOk (r : Except String Unit) : Bool :=
  match r with
  | .ok _ => true
  | .error _ => false

/-- A signature verifier that rejects everything; concrete witnesses use
only system-sender transactions, which never reach it. -/
def noVerify : SigVerify := fun _ _ _ => false

/-- A system-sender (reward-style) transaction fixture. -/
def sysTx (id «to» : String) (amount fee : Rat) (expiration : Int) : Transaction :=
  { id := id, «from» := "Blockchain", «to» := «to», amount := amount, fee := fee,
    timestamp := 0, expiration := expiration, signature := none }

/-- A balance map holding `v` at `addr` and 0 elsewhere. -/
def balOf (addr : String) (v : Rat) : Balances :=
  fun a => if a = addr then v else 0

/-- A `Blockchain` fixture with the given mempool, tracked byte total,
byte ceiling and balances, other fields at the constructor defaults. -/
def mkState (mempool : List Transaction) (size maxBytes : Nat) (bal : Balances) : Blockchain :=
  { chain := [], difficulty := 2, pending_transactions := [], mining_reward := 10,
    balances := bal, target_block_time := 60, mempool := mempool, block_time_window := [],
    difficulty_adjustment_interval := 10, max_mempool_size := 1000,
    max_mempool_size_bytes := maxBytes, mempool_size_bytes := size }

/-- Genesis-like block fixture (no transactions). -/
def genesisBlock : Block :=
  { index := 0, timestamp := 0, transactions := [], previous_hash := "0", hash := "",
    nonce := 0, difficulty := 2, merkle_root := Digest.empty }

/-- A mining-reward transaction of amount 10 to "Miner". -/
def rewardTx (id : String) : Transaction := sysTx id "Miner" 10 0 1000

/-- A block containing exactly one reward transaction. -/
def rewardBlock (index : Nat) (timestamp : Int) (id : String) : Block :=
  { index := index, timestamp := timestamp, transactions := [rewardTx id],
    previous_hash := "", hash := "", nonce := 0, difficulty := 2,
    merkle_root := (MerkleTree.new [rewardTx id]).root }

/-- First mine-append: genesis plus one 10-coin reward block, balances
updated the way `mine_pending_transactions` does. -/
def mineStep1 : List Block × Balances :=
  append_and_update [genesisBlock] (fun _ => 0) (rewardBlock 1 1 "r1")

/-- Second mine-append on top of `mineStep1`. -/
def mineStep2 : List Block × Balances :=
  append_and_update mineStep1.1 mineStep1.2 (rewardBlock 2 2 "r2")

/-- A non-system transaction whose sender address is not valid hex. -/
def txBadHex : Transaction :=
  { id := "x", «from» := "zz", «to» := "M", amount := 1, fee := 0,
    timestamp := 0, expiration := 0, signature := some "ab" }

/-- A small admissible system transaction (size 139 bytes, fee 1). -/
def tx_small : Transaction := sysTx "A" "M" 1 1 10

/-- Empty mempool with a 100-byte ceiling — smaller than any single
transaction. -/
def st_tiny_cap : Blockchain := mkState [] 0 100 (balOf "Blockchain" 100)

/-- Empty mempool with the default 5 MB ceiling. -/
def st_big_cap : Blockchain := mkState [] 0 5000000 (balOf "Blockchain" 100)

/-- An unexpired pending transaction and a state tracking exactly its
139 bytes. -/
def tx_unexpired : Transaction := sysTx "t" "M" 1 1 10

def st_one_tx : Blockchain := mkState [tx_unexpired] 139 5000000 (fun _ => 0)

/-- Replace-by-fee fixtures: same id "R", fees 1 and 2. -/
def old_rbf : Transaction := sysTx "R" "M" 1 1 100

def new_rbf : Transaction := sysTx "R" "M" 1 2 100

def st_rbf : Blockchain := mkState [old_rbf] 139 5000000 (balOf "Blockchain" 100)

/-- A resident transaction spending most of a 10-coin balance, so that
re-admitting it trips the conservative double-spend check. -/
def tx_ds : Transaction := sysTx "A" "M" 6 1 100

def st_ds : Blockchain := mkState [tx_ds] 139 5000000 (balOf "Blockchain" 10)

/-- Same resident entry with an ample balance: the double-spend check
passes and the duplicate check fires. -/
def st_dup : Blockchain := mkState [tx_ds] 139 5000000 (balOf "Blockchain" 100)

/-- The same low balance as `st_ds` but with an empty pool: `tx_ds` is
admissible here, showing it is only the resident duplicate that trips
the double-spend check. -/
def st_ds_empty : Blockchain := mkState [] 0 5000000 (balOf "Blockchain" 10)

/-- The state produced by admitting `tx_small` into `st_big_cap`. -/
def st_after_add : Blockchain :=
  { st_big_cap with mempool := [tx_small], mempool_size_bytes := 139 }

/-- The state produced by admitting `tx_small` into `st_tiny_cap`
(the tracked total 139 exceeds the 100-byte ceiling). -/
def st_tiny_after_add : Blockchain :=
  { st_tiny_cap with mempool := [tx_small], mempool_size_bytes := 139 }

/-! ## Theorems -/

/-! ### Merkle tree structure lemmas -/

theorem pair_and_hash_length (l : List Digest) :
    (pair_and_hash l).length = (l.length + 1) / 2 := by
  induction l using pair_and_hash.induct with
  | case1 => simp [pair_and_hash]
  | case2 _ => simp [pair_and_hash]
  | case3 a b rest ih =>
      simp only [pair_and_hash, List.length_cons, ih]
      omega

theorem mem_pair_and_hash :
    ∀ l : List Digest, ∀ x ∈ pair_and_hash l, ∃ a b, x = Digest.node a b := by
  intro l
  induction l using pair_and_hash.induct with
  | case1 => intro x hx; simp [pair_and_hash] at hx
  | case2 a =>
      intro x hx
      simp only [pair_and_hash, hash_pair, List.mem_singleton] at hx
      exact ⟨a, a, hx⟩
  | case3 a b rest ih =>
      intro x hx
      simp only [pair_and_hash, hash_pair, List.mem_cons] at hx
      rcases hx with h | h
      · exact ⟨a, b, h⟩
      · exact ih x h

theorem collapse_length_one :
    ∀ l : List Digest, 0 < l.length → (collapse l).length = 1 := by
  intro l
  induction l using collapse.induct with
  | case1 l h ih =>
      intro _
      rw [collapse, dif_pos h]
      exact ih (by rw [pair_and_hash_length]; omega)
  | case2 l h =>
      intro h0
      rw [collapse, dif_neg h]
      omega

theorem collapse_all_node :
    ∀ l : List Digest, 1 < l.length → ∀ x ∈ collapse l, ∃ a b, x = Digest.node a b := by
  intro l
  induction l using collapse.induct with
  | case1 l h ih =>
      intro _
      rw [collapse, dif_pos h]
      by_cases h2 : 1 < (pair_and_hash l).length
      · exact ih h2
      · rw [collapse, dif_neg h2]
        exact fun x hx => mem_pair_and_hash l x hx
  | case2 l h =>
      intro hcontra
      exact absurd hcontra h

/-- After construction the `nodes` field of a tree over a non-empty
transaction list holds exactly one digest, and that digest is an
internal `hash_pair` node (never a leaf hash). -/
theorem merkleTree_new_nodes (txs : List Transaction) (h : txs ≠ []) :
    ∃ a b, (MerkleTree.new txs).nodes = [Digest.node a b] := by
  have hlen : 0 < (txs.map Transaction.calculate_hash).length := by
    simpa using List.length_pos.mpr h
  simp only [MerkleTree.new]
  set leaves := txs.map Transaction.calculate_hash with hl
  have hpadded : ∀ padded : List Digest, 1 < padded.length →
      ∃ a b, collapse padded = [Digest.node a b] := by
    intro padded hp
    have h1 : (collapse padded).length = 1 := collapse_length_one padded (by omega)
    obtain ⟨x, hx⟩ := List.length_eq_one.mp h1
    obtain ⟨a, b, hab⟩ := collapse_all_node padded hp x (by rw [hx]; simp)
    exact ⟨a, b, by rw [hx, hab]⟩
  by_cases hodd : leaves.length % 2 ≠ 0
  · rw [if_pos hodd]
    cases hgl : leaves.getLast? with
    | none =>
        rw [List.getLast?_eq_none_iff] at hgl
        rw [hgl] at hlen
        simp at hlen
    | some lastEl =>
        exact hpadded _ (by simp; omega)
  · rw [if_neg hodd]
    exact hpadded _ (by omega)

/-- C1.  For every non-empty transaction list, after building the Merkle
tree over it, `get_proof` returns `none` for EVERY transaction — the
`while` loop of `MerkleTree::new` overwrites `nodes` with each level, so
only the root level survives and the leaf-hash lookup in `get_proof`
never succeeds.  Hence no generated inclusion proof can ever be checked
by `verify_proof`, refuting the claimed round trip (the claim is the
documented intent; the code is broken). -/
theorem get_proof_always_none (txs : List Transaction) (tx : Transaction) (h : txs ≠ []) :
    (MerkleTree.new txs).get_proof tx = none := by
  obtain ⟨a, b, hn⟩ := merkleTree_new_nodes txs h
  unfold MerkleTree.get_proof
  rw [hn]
  simp [List.findIdx?_cons, Transaction.calculate_hash]

/-- Witness for C1 at a concrete one-transaction list. -/
theorem get_proof_always_none_witness :
    (MerkleTree.new [rewardTx "r1"]).get_proof (rewardTx "r1") = none :=
  get_proof_always_none [rewardTx "r1"] (rewardTx "r1") (by simp)

/-! ### Balance bookkeeping -/

/-- C2.  `update_balances` replays the WHOLE chain on top of the current
balances instead of applying only the newly appended block: after a
second `mine`-append of a 10-coin reward block, the miner balance is 30,
whereas applying only the new block (and the ground-truth full replay
`recalculate_balances`) gives 20.  The code double-counts every block
already processed, contradicting the claim and the code's own
`recalculate_balances`. -/
theorem update_balances_replays_whole_chain :
    mineStep1.2 "Miner" = 10 ∧
    mineStep2.2 "Miner" = 30 ∧
    applyBlockTxs mineStep1.2 (rewardBlock 2 2 "r2") "Miner" = 20 ∧
    recalculate_balances mineStep2.1 "Miner" = 20 := by
  refine ⟨?_, ?_, ?_, ?_⟩ <;>
    norm_num +decide [mineStep1, mineStep2, append_and_update, update_balances,
      recalculate_balances, applyBlockTxs, applyTx, updBal, rewardBlock, rewardTx, sysTx,
      genesisBlock]

/-! ### Transaction validity -/

/-- C8.  `Transaction::is_valid` returns `true` (without panicking) iff
the sender is the reserved system sender "Blockchain", or the amount is
strictly positive, a signature is present, both the sender address and
the signature decode as hex, and the signature scheme verifies the
decoded signature against the content hash with the decoded sender
address as public key. -/
theorem is_valid_iff (verify : SigVerify) (tx : Transaction) :
    tx.is_valid verify = some true ↔
      (tx.«from» = "Blockchain" ∨
        (0 < tx.amount ∧ ∃ s pk sg, tx.signature = some s ∧
          hexDecode tx.«from» = some pk ∧ hexDecode s = some sg ∧
          verify pk tx.calculate_hash sg = true)) := by
  unfold Transaction.is_valid
  by_cases hb : tx.«from» = "Blockchain"
  · simp [hb]
  · by_cases ha : tx.amount ≤ 0
    · simp only [if_neg hb, if_pos ha]
      constructor
      · intro hcontra; simp at hcontra
      · rintro (h | ⟨h0, _⟩)
        · exact absurd h hb
        · exact absurd h0 (not_lt.mpr ha)
    · have ha' : 0 < tx.amount := not_le.mp ha
      simp only [if_neg hb, if_neg ha]
      cases hsig : tx.signature with
      | none => simp [hb, ha']
      | some s =>
          cases hfrom : hexDecode tx.«from» with
          | none => simp [hb, ha', hfrom]
          | some pk =>
              cases hsd : hexDecode s with
              | none => simp [hb, ha', hfrom, hsd]
              | some sg => simp [hb, ha', hfrom, hsd]

/-- C9.  For a non-system transaction with positive amount and a stored
signature, `is_valid` panics (modelled as `none`) whenever the sender
address or the signature is not valid hex — it does not return `false`;
when both decode, it totalises to the verification outcome. -/
theorem is_valid_hex_precondition (verify : SigVerify) (tx : Transaction) (s : String)
    (hns : tx.«from» ≠ "Blockchain") (hamt : 0 < tx.amount)
    (hsig : tx.signature = some s) :
    ((hexDecode tx.«from» = none ∨ hexDecode s = none) → tx.is_valid verify = none) ∧
    (∀ pk sg, hexDecode tx.«from» = some pk → hexDecode s = some sg →
      tx.is_valid verify = some (verify pk tx.calculate_hash sg)) := by
  have ha : ¬ tx.amount ≤ 0 := not_le.mpr hamt
  unfold Transaction.is_valid
  constructor
  · rintro (h | h)
    · cases hsd : hexDecode s <;> simp [hns, ha, hsig, h, hsd]
    · cases hf : hexDecode tx.«from» <;> simp [hns, ha, hsig, h, hf]
  · intro pk sg hpk hsg
    simp [hns, ha, hsig, hpk, hsg]

/-- Witness for C9: a concrete non-system transaction with a non-hex
sender address makes `is_valid` panic. -/
theorem is_valid_hex_precondition_witness :
    txBadHex.«from» ≠ "Blockchain" ∧ 0 < txBadHex.amount ∧
      txBadHex.signature = some "ab" ∧
      Transaction.is_valid noVerify txBadHex = none := by
  refine ⟨by decide, by decide, rfl, ?_⟩
  exact (is_valid_hex_precondition noVerify txBadHex "ab" (by decide) (by decide) rfl).1
    (Or.inl (by decide))

/-! ### Proof-of-work target -/

/-- C10.  The target computation `(1u128 << (128 - difficulty)) - 1` is
well-defined exactly for `1 ≤ difficulty ≤ 128` (`difficulty = 0`
overflows the 128-bit shift, `difficulty > 128` overflows the `u32`
subtraction, both panic), while `Blockchain::new` stores any difficulty
without validation. -/
theorem powTarget_domain (d : Nat) :
    (∀ (blockHash : Block → String) (now : Int) (mr : Rat) (tbt : Int),
        (Blockchain.new blockHash now d mr tbt).difficulty = d) ∧
    ((powTarget d).isSome ↔ 1 ≤ d ∧ d ≤ 128) := by
  refine ⟨fun _ _ _ _ => rfl, ?_⟩
  unfold powTarget
  split_ifs with h1 h2
  · simp only [Option.isSome_none, Bool.false_eq_true, false_iff]; omega
  · simp only [Option.isSome_none, Bool.false_eq_true, false_iff]; omega
  · simp only [Option.isSome_some, true_iff]; omega

/-! ### Mempool bookkeeping lemmas -/

theorem string_length_Blockchain : "Blockchain".length = 10 := by decide

theorem string_length_M : "M".length = 1 := by decide

theorem sizeSum_cons (t : Transaction) (l : List Transaction) :
    sizeSum (t :: l) = calculate_transaction_size t + sizeSum l := by
  simp [sizeSum]

theorem sizeSum_append (l1 l2 : List Transaction) :
    sizeSum (l1 ++ l2) = sizeSum l1 + sizeSum l2 := by
  simp [sizeSum]

theorem sizeSum_reverse (l : List Transaction) : sizeSum l.reverse = sizeSum l := by
  simp [sizeSum, List.sum_reverse]

theorem sizeSum_perm {l l' : List Transaction} (h : l.Perm l') : sizeSum l = sizeSum l' :=
  (h.map _).sum_eq

theorem sizeSum_insertionSort (l : List Transaction) :
    sizeSum (l.insertionSort feeGE) = sizeSum l :=
  sizeSum_perm (List.perm_insertionSort feeGE l)

theorem evictRev_sizes (required max : Nat) :
    ∀ (l : List Transaction) (size : Nat), size = sizeSum l →
      (evictRev required max l size).2 = sizeSum (evictRev required max l size).1 ∧
      ((evictRev required max l size).2 + required ≤ max ∨
        (evictRev required max l size).1 = []) := by
  intro l
  induction l with
  | nil =>
      intro size h
      simp [evictRev, h, sizeSum]
  | cons t rest ih =>
      intro size h
      rw [sizeSum_cons] at h
      by_cases hc : max < size + required
      · rw [evictRev, if_pos hc]
        exact ih (size - calculate_transaction_size t) (by omega)
      · rw [evictRev, if_neg hc]
        refine ⟨by rw [sizeSum_cons]; omega, Or.inl (by omega)⟩

theorem evictRev_suffix (required max : Nat) :
    ∀ (l : List Transaction) (size : Nat), (evictRev required max l size).1 <:+ l := by
  intro l
  induction l with
  | nil => intro size; simp [evictRev]
  | cons t rest ih =>
      intro size
      by_cases hc : max < size + required
      · rw [evictRev, if_pos hc]
        exact (ih _).trans (List.suffix_cons t rest)
      · rw [evictRev, if_neg hc]

/-- Lemma: `evict_transactions` preserves the byte-total bookkeeping, stops
either with room for the required space or with an empty pool, and does
not change the ceiling. -/
theorem evict_transactions_spec (bc : Blockchain) (required : Nat)
    (hwf : SizeConsistent bc) :
    SizeConsistent (evict_transactions bc required) ∧
    ((evict_transactions bc required).mempool_size_bytes + required ≤
        bc.max_mempool_size_bytes ∨
      (evict_transactions bc required).mempool = []) ∧
    (evict_transactions bc required).max_mempool_size_bytes = bc.max_mempool_size_bytes := by
  obtain ⟨h1, h2⟩ := evictRev_sizes required bc.max_mempool_size_bytes bc.mempool.reverse
    bc.mempool_size_bytes (by rw [sizeSum_reverse]; exact hwf)
  refine ⟨?_, ?_, rfl⟩
  · show _ = sizeSum _
    simp only [evict_transactions]
    rw [sizeSum_reverse]
    exact h1
  · rcases h2 with h | h
    · exact Or.inl h
    · exact Or.inr (by simp only [evict_transactions, h, List.reverse_nil])

/-- Evicting from a fee-rate-sorted pool keeps it sorted: `Vec::pop`
removes from the tail, and a prefix of a sorted list is sorted. -/
theorem evict_transactions_sorted (bc : Blockchain) (required : Nat)
    (hs : bc.mempool.Sorted feeGE) :
    (evict_transactions bc required).mempool.Sorted feeGE := by
  have hsuf := evictRev_suffix required bc.max_mempool_size_bytes bc.mempool.reverse
    bc.mempool_size_bytes
  have hpre : (evictRev required bc.max_mempool_size_bytes bc.mempool.reverse
      bc.mempool_size_bytes).1.reverse <+: bc.mempool := by
    have := List.reverse_prefix.mpr hsuf
    rwa [List.reverse_reverse] at this
  exact hs.sublist hpre.sublist

/-! ### C3: byte-size ceiling -/

/-- Counterexample for C3 as stated: a transaction whose own 139-byte
size exceeds a 100-byte ceiling is nevertheless admitted (`Ok`), and the
tracked byte total ends above the ceiling — there is no `MempoolFull`
failure anywhere in `add_to_mempool`. -/
theorem mempool_ceiling_exceeded_cx :
    add_to_mempool noVerify 0 st_tiny_cap tx_small = some (.ok (), st_tiny_after_add) ∧
    st_tiny_after_add.max_mempool_size_bytes < st_tiny_after_add.mempool_size_bytes := by
  constructor
  · norm_num +decide [add_to_mempool, Transaction.is_valid, doubleSpendHit, st_tiny_cap,
      tx_small, sysTx, mkState, balOf, Blockchain.get_balance, calculate_transaction_size,
      transactionBaseSize, MIN_FEE_RATE, evict_transactions, evictRev, sort_mempool,
      List.insertionSort, string_length_Blockchain, string_length_M, st_tiny_after_add]
  · decide

/-- C3, amended: when every admitted transaction fits the ceiling by
itself, the eviction loop guarantees the tracked byte total never
exceeds the ceiling, and the byte-total bookkeeping stays consistent. -/
theorem mempool_ceiling_invariant (verify : SigVerify) (now : Int) (bc : Blockchain)
    (tx : Transaction) (res : Except String Unit) (bc' : Blockchain)
    (hwf : SizeConsistent bc)
    (hle : bc.mempool_size_bytes ≤ bc.max_mempool_size_bytes)
    (htx : calculate_transaction_size tx ≤ bc.max_mempool_size_bytes)
    (heq : add_to_mempool verify now bc tx = some (res, bc')) :
    bc'.mempool_size_bytes ≤ bc'.max_mempool_size_bytes ∧ SizeConsistent bc' := by
  unfold add_to_mempool at heq
  cases hv : tx.is_valid verify with
  | none => simp [hv] at heq
  | some v =>
      simp only [hv] at heq
      split_ifs at heq with h1 h2 h3 h4 h5 h6 h7 <;>
        try (simp only [Option.some.injEq, Prod.mk.injEq] at heq
             rw [← heq.2]
             exact ⟨hle, hwf⟩)
      -- the two successful-insertion branches remain
      · obtain ⟨hcons, hroom, hmax⟩ := evict_transactions_spec bc
          (calculate_transaction_size tx) hwf
        simp only [Option.some.injEq, Prod.mk.injEq] at heq
        rw [← heq.2]
        constructor
        · show (sort_mempool _).mempool_size_bytes ≤ (sort_mempool _).max_mempool_size_bytes
          simp only [sort_mempool]
          rcases hroom with h | h
          · omega
          · have h0 : (evict_transactions bc (calculate_transaction_size tx)).mempool_size_bytes
                = 0 := by
              rw [hcons, h]; simp [sizeSum]
            omega
        · show _ = sizeSum _
          simp only [sort_mempool, sizeSum_insertionSort, sizeSum_append]
          rw [hcons]
          simp [sizeSum]
      · simp only [Option.some.injEq, Prod.mk.injEq] at heq
        rw [← heq.2]
        constructor
        · show (sort_mempool _).mempool_size_bytes ≤ (sort_mempool _).max_mempool_size_bytes
          simp only [sort_mempool]
          omega
        · show _ = sizeSum _
          simp only [sort_mempool, sizeSum_insertionSort, sizeSum_append]
          rw [hwf]
          simp [sizeSum]

/-- Witness for the amended C3 at a concrete admissible input. -/
theorem mempool_ceiling_invariant_witness :
    SizeConsistent st_big_cap ∧
    st_big_cap.mempool_size_bytes ≤ st_big_cap.max_mempool_size_bytes ∧
    calculate_transaction_size tx_small ≤ st_big_cap.max_mempool_size_bytes ∧
    (st_after_add.mempool_size_bytes ≤ st_after_add.max_mempool_size_bytes ∧
      SizeConsistent st_after_add) := by
  refine ⟨by simp [SizeConsistent, st_big_cap, mkState, sizeSum], by decide, by decide, ?_⟩
  refine mempool_ceiling_invariant noVerify 0 st_big_cap tx_small (.ok ()) _
    (by simp [SizeConsistent, st_big_cap, mkState, sizeSum]) (by decide) (by decide) ?_
  norm_num +decide [add_to_mempool, Transaction.is_valid, doubleSpendHit, st_big_cap,
    tx_small, sysTx, mkState, balOf, Blockchain.get_balance, calculate_transaction_size,
    transactionBaseSize, MIN_FEE_RATE, sort_mempool, List.insertionSort,
    string_length_Blockchain, string_length_M, st_after_add]

/-! ### C4: mempool take -/

/-- C4.  `get_transactions_from_mempool` purges expired entries and
drains up to `max_transactions` from the front, and never returns an
expired entry — but it leaves the tracked byte total COMPLETELY
unchanged, contrary to the claimed decrement (every other mempool
operation, and `load_mempool`, maintain the total; this drain silently
breaks it). -/
theorem take_leaves_byte_total_unchanged (now : Int) (bc : Blockchain) (maxT : Nat) :
    (get_transactions_from_mempool now bc maxT).2.mempool_size_bytes =
      bc.mempool_size_bytes ∧
    ∀ tx ∈ (get_transactions_from_mempool now bc maxT).1, now < tx.expiration := by
  refine ⟨rfl, ?_⟩
  intro tx htx
  have hmem : tx ∈ bc.mempool.filter fun t => decide (now < t.expiration) :=
    (List.take_sublist _ _).subset htx
  have := (List.mem_filter.mp hmem).2
  simpa using this

/-- Witness for C4: with one unexpired 139-byte entry and take(1), the
entry is returned while the tracked total stays at 139. -/
theorem take_leaves_byte_total_unchanged_witness :
    (get_transactions_from_mempool 0 st_one_tx 1).2.mempool_size_bytes =
      st_one_tx.mempool_size_bytes ∧
    (0 : Int) < tx_unexpired.expiration := by
  refine ⟨(take_leaves_byte_total_unchanged 0 st_one_tx 1).1, ?_⟩
  refine (take_leaves_byte_total_unchanged 0 st_one_tx 1).2 tx_unexpired ?_
  simp [get_transactions_from_mempool, st_one_tx, tx_unexpired, sysTx, mkState]

/-! ### C5: fee-rate ordering -/

/-- C5.  Starting from a fee-rate-sorted mempool, every admission
(successful or rejected), every eviction and every replacement leaves
the mempool sorted by weakly descending fee rate (adjacent pairs satisfy
`fee_rate[i] >= fee_rate[i+1]`). -/
theorem mempool_sorted_after_ops (verify : SigVerify) (now : Int) (bc : Blockchain)
    (tx : Transaction) (req : Nat) (hs : bc.mempool.Sorted feeGE) :
    (∀ p, add_to_mempool verify now bc tx = some p → p.2.mempool.Sorted feeGE) ∧
    (evict_transactions bc req).mempool.Sorted feeGE ∧
    (∀ p, replace_transaction verify bc tx = some p → p.2.mempool.Sorted feeGE) := by
  refine ⟨?_, evict_transactions_sorted bc req hs, ?_⟩
  · intro p hp
    unfold add_to_mempool at hp
    cases hv : tx.is_valid verify with
    | none => simp [hv] at hp
    | some v =>
        simp only [hv] at hp
        split_ifs at hp with h1 h2 h3 h4 h5 h6 h7 <;>
          (simp only [Option.some.injEq] at hp; rw [← hp]) <;>
          first
            | exact hs
            | exact List.sorted_insertionSort feeGE _
  · intro p hp
    unfold replace_transaction at hp
    cases hv : tx.is_valid verify with
    | none => simp [hv] at hp
    | some v =>
        simp only [hv] at hp
        split_ifs at hp with h1 h2
        · simp only [Option.some.injEq] at hp; rw [← hp]; exact hs
        · simp only [Option.some.injEq] at hp; rw [← hp]; exact hs
        · cases hf : bc.mempool.find? fun t => decide (t.id = tx.id) with
          | none =>
              simp only [hf, Option.some.injEq] at hp
              rw [← hp]; exact hs
          | some old =>
              simp only [hf] at hp
              split_ifs at hp with h3
              · simp only [Option.some.injEq] at hp; rw [← hp]; exact hs
              · simp only [Option.some.injEq] at hp; rw [← hp]
                exact List.sorted_insertionSort feeGE _

/-- Witness for C5: the empty pool is sorted, and so is the pool after
a concrete eviction call. -/
theorem mempool_sorted_after_ops_witness :
    st_big_cap.mempool.Sorted feeGE ∧
    (evict_transactions st_big_cap 5).mempool.Sorted feeGE :=
  ⟨by simp [st_big_cap, mkState],
    (mempool_sorted_after_ops noVerify 0 st_big_cap tx_small 5
      (by simp [st_big_cap, mkState])).2.1⟩

/-! ### C6: replace-by-fee -/

/-- In a pool with pairwise-distinct identifiers, after erasing the
first entry carrying identifier `i`, no entry with identifier `i`
remains. -/
theorem eraseP_id_unique (i : String) :
    ∀ l : List Transaction, (l.map Transaction.id).Nodup →
      ∀ t ∈ l.eraseP (fun x => decide (x.id = i)), t.id ≠ i := by
  intro l
  induction l with
  | nil => intro _ t ht; simp at ht
  | cons a rest ih =>
      intro hnd t ht
      rw [List.map_cons, List.nodup_cons] at hnd
      by_cases ha : a.id = i
      · rw [List.eraseP_cons_of_pos (by simp [ha])] at ht
        intro hti
        have hmem : t.id ∈ rest.map Transaction.id := List.mem_map_of_mem _ ht
        rw [hti, ← ha] at hmem
        exact hnd.1 hmem
      · rw [List.eraseP_cons_of_neg (by simp [ha])] at ht
        rcases List.mem_cons.mp ht with h | h
        · subst h; exact ha
        · exact ih hnd.2 t h

/-- C6.  For a valid, sufficiently funded replacement whose identifier
matches a pending entry: an equal-or-lower fee is rejected with the
`FeeNotHigher` error and the state is returned unchanged; a strictly
higher fee removes the old entry, inserts the new one, adjusts the byte
total by the size difference, and leaves the pool re-sorted. -/
theorem replace_transaction_spec (verify : SigVerify) (bc : Blockchain)
    (tx old : Transaction)
    (hv : tx.is_valid verify = some true)
    (hbal : ¬ bc.get_balance tx.«from» < tx.amount + tx.fee)
    (hfind : bc.mempool.find? (fun t => decide (t.id = tx.id)) = some old)
    (hnd : (bc.mempool.map Transaction.id).Nodup) :
    (tx.fee ≤ old.fee →
      replace_transaction verify bc tx =
        some (.error "New transaction must have a higher fee for RBF", bc)) ∧
    (old.fee < tx.fee → ∃ bc',
      replace_transaction verify bc tx = some (.ok (), bc') ∧
      tx ∈ bc'.mempool ∧
      (∀ t ∈ bc'.mempool, t.id = tx.id → t = tx) ∧
      bc'.mempool_size_bytes =
        bc.mempool_size_bytes - calculate_transaction_size old +
          calculate_transaction_size tx ∧
      bc'.mempool.Sorted feeGE) := by
  constructor
  · intro hle
    unfold replace_transaction
    simp only [hv, Bool.not_true]
    rw [if_neg (by simp), if_neg hbal]
    simp only [hfind]
    rw [if_pos hle]
  · intro hlt
    have heq : replace_transaction verify bc tx =
        some (.ok (), sort_mempool
          { bc with
              mempool := (bc.mempool.eraseP fun t => decide (t.id = tx.id)) ++ [tx]
              mempool_size_bytes := bc.mempool_size_bytes -
                calculate_transaction_size old + calculate_transaction_size tx }) := by
      unfold replace_transaction
      simp only [hv, Bool.not_true]
      rw [if_neg (by simp), if_neg hbal]
      simp only [hfind]
      rw [if_neg (not_le.mpr hlt)]
    refine ⟨_, heq, ?_, ?_, rfl, ?_⟩
    · show tx ∈ (sort_mempool _).mempool
      simp only [sort_mempool]
      rw [List.mem_insertionSort]
      exact List.mem_append_right _ (by simp)
    · intro t ht hid
      simp only [sort_mempool] at ht
      rw [List.mem_insertionSort] at ht
      rcases List.mem_append.mp ht with h | h
      · exact absurd hid (eraseP_id_unique tx.id bc.mempool hnd t h)
      · simpa using h
    · show (sort_mempool _).mempool.Sorted feeGE
      exact List.sorted_insertionSort feeGE _

/-- Witness for C6 at a concrete strictly-higher-fee replacement. -/
theorem replace_transaction_spec_witness :
    old_rbf.fee < new_rbf.fee ∧
    (∃ bc', replace_transaction noVerify st_rbf new_rbf = some (.ok (), bc') ∧
      new_rbf ∈ bc'.mempool ∧
      (∀ t ∈ bc'.mempool, t.id = new_rbf.id → t = new_rbf) ∧
      bc'.mempool_size_bytes =
        st_rbf.mempool_size_bytes - calculate_transaction_size old_rbf +
          calculate_transaction_size new_rbf ∧
      bc'.mempool.Sorted feeGE) := by
  have hlt : old_rbf.fee < new_rbf.fee := by
    norm_num [old_rbf, new_rbf, sysTx]
  refine ⟨hlt, ?_⟩
  refine (replace_transaction_spec noVerify st_rbf new_rbf old_rbf (by decide) ?_
    (by decide) (by decide)).2 hlt
  norm_num [st_rbf, mkState, balOf, Blockchain.get_balance, new_rbf, sysTx]

/-! ### C7: duplicate admission -/

/-- Counterexample for C7 as stated: with balance 10 and a resident
6+1-coin entry, re-admitting the identical transaction is rejected by
the double-spend check (which runs first and sees the resident
duplicate), not by the duplicate check — even though the transaction is
perfectly admissible into the same state without the resident entry. -/
theorem duplicate_masked_by_double_spend_cx :
    add_to_mempool noVerify 0 st_ds tx_ds =
      some (.error "Potential double-spend detected", st_ds) ∧
    (add_to_mempool noVerify 0 st_ds_empty tx_ds).map (fun p => isOk p.1) = some true ∧
    ("Potential double-spend detected" : String) ≠ "Transaction already in mempool" := by
  refine ⟨?_, ?_, by decide⟩
  · have h : (10 : Rat) - (6 + 1) < 6 + 1 := by norm_num
    norm_num +decide [add_to_mempool, Transaction.is_valid, doubleSpendHit, st_ds, tx_ds,
      sysTx, mkState, balOf, Blockchain.get_balance, List.any_cons, List.any_nil, h]
  · norm_num +decide [add_to_mempool, Transaction.is_valid, doubleSpendHit, st_ds_empty,
      tx_ds, sysTx, mkState, balOf, Blockchain.get_balance, List.any_cons, List.any_nil,
      calculate_transaction_size, transactionBaseSize, MIN_FEE_RATE, sort_mempool,
      List.insertionSort, isOk, string_length_Blockchain, string_length_M]

/-- C7, amended.  When the earlier checks of `add_to_mempool` pass on
the actual state — validity, balance, and in particular the conservative
double-spend check, which runs before the duplicate check and can be
tripped by the resident duplicate itself — a transaction whose
identifier is already present is rejected with the `Duplicate` error and
the state is returned unchanged. -/
theorem duplicate_rejected (verify : SigVerify) (now : Int) (bc : Blockchain)
    (tx : Transaction)
    (hv : tx.is_valid verify = some true)
    (hbal : ¬ bc.get_balance tx.«from» < tx.amount + tx.fee)
    (hds : doubleSpendHit bc tx = false)
    (hdup : (bc.mempool.any fun t => decide (t.id = tx.id)) = true) :
    add_to_mempool verify now bc tx =
      some (.error "Transaction already in mempool", bc) := by
  unfold add_to_mempool
  simp only [hv, Bool.not_true]
  rw [if_neg (by simp), if_neg hbal, if_neg (by simp [hds]), if_pos hdup]

/-- Witness for the amended C7: ample balance, resident duplicate, and
the `Duplicate` error comes back with the state unchanged. -/
theorem duplicate_rejected_witness :
    (st_dup.mempool.any fun t => decide (t.id = tx_ds.id)) = true ∧
    add_to_mempool noVerify 0 st_dup tx_ds =
      some (.error "Transaction already in mempool", st_dup) := by
  refine ⟨by decide, duplicate_rejected noVerify 0 st_dup tx_ds (by decide) ?_ ?_ (by decide)⟩
  · norm_num [st_dup, mkState, balOf, Blockchain.get_balance, tx_ds, sysTx]
  · have h : ¬ ((100 : Rat) - (6 + 1) < 6 + 1) := by norm_num
    simp only [doubleSpendHit, st_dup, tx_ds, mkState, balOf, sysTx,
      Blockchain.get_balance, List.any_cons, List.any_nil, Bool.or_false]
    simp [h]

end Kraken
